import Mathlib

/-!
Shallow embedding of the streamplace-plays-pokemon chat-command pipeline
(TypeScript listener): command parser, chatter activity tracker, identity
cache, bounded command queue with a single consumer loop, and the overlay
snapshot computation.  Strings are modelled as lists of characters; the
JavaScript regular expression used for the repeat suffix is modelled by an
explicit scanner with the same semantics.
-/

namespace SPP

/-- Numeric constants from the source (default environment values). -/
def KEYPRESS_DURATION_MS : Nat := 80

def LONG_KEYPRESS_DURATION_MS : Nat := 240

def MAX_QUEUE_ITEMS : Nat := 40

def IDENTITY_CACHE_TTL_MS : Int := 15 * 60 * 1000

def CHATTER_WINDOW_MS : Int := 10 * 60 * 1000

def MIN_UNIQUE_CHATTERS_FOR_NO_SPAM : Nat := 3

def MAX_COMMAND_SPAM_REPEAT : Nat := 100

def QUEUE_COMMAND_DELAY_MS : Int := 80

def SPAM_REPEAT_DELAY_MS : Int := 140

/-- JavaScript whitespace characters (the set matched by the regex class
backslash-s and removed by String.prototype.trim), restricted to the code
points this embedding models. -/
def isJsWS (c : Char) : Bool :=
  c = ' ' || c = '\t' || c = '\n' || c = '\r' ||
  c = '\x0b' || c = '\x0c' || c = ' ' ||
  c = ' ' || c = ' ' || c = '﻿'

/-- Characters matched by the regex dot (anything except line terminators). -/
def isDot (c : Char) : Bool :=
  !(c = '\n' || c = '\r' || c = ' ' || c = ' ')

def isDigit (c : Char) : Bool :=
  '0' ≤ c && c ≤ '9'

/-- String.prototype.trim: drop whitespace from both ends. -/
def jsTrim (s : List Char) : List Char :=
  ((s.dropWhile isJsWS).reverse.dropWhile isJsWS).reverse

/-- String.prototype.toLowerCase restricted to ASCII letters. -/
def jsToLower (s : List Char) : List Char :=
  s.map Char.toLower

/-- normalizeCommand: raw.trim().toLowerCase(). -/
def normalizeCommand (s : List Char) : List Char :=
  jsToLower (jsTrim s)

/-- The fixed button vocabulary (SUPPORTED_COMMANDS in the source). -/
def SUPPORTED_COMMANDS : List (List Char) :=
  ["up".data, "down".data, "left".data, "right".data, "a".data, "b".data,
   "start".data, "select".data, "l".data, "r".data]

/-- Match the suffix part of the repeat regex at a position: one or more
whitespace characters, then the letter x, then one or more digits running to
the end of the string.  Returns the digit group.  No backtracking over the
greedy whitespace run is needed because the letter x and digits are not
whitespace. -/
def spamSuffixAt (rest : List Char) : Option (List Char) :=
  if (rest.takeWhile isJsWS).isEmpty then none
  else
    match rest.dropWhile isJsWS with
    | 'x' :: ds => if !ds.isEmpty && ds.all isDigit then some ds else none
    | _ => none

/-- Scanner for the anchored regex matching a lazy non-empty dot group, then
whitespace, then x and digits to the end.  The lazy group means the base is
the shortest non-empty prefix whose remainder matches the suffix.  Returns
(base group, digit group). -/
def spamScan (acc : List Char) : List Char → Option (List Char × List Char)
  | [] => none
  | c :: rest =>
    if isDot c then
      match spamSuffixAt rest with
      | some ds => some (acc ++ [c], ds)
      | none => spamScan (acc ++ [c]) rest
    else none

/-- The repeat-suffix match on a normalized input. -/
def spamMatch (s : List Char) : Option (List Char × List Char) :=
  spamScan [] s

/-- Number.parseInt on a non-empty all-digit string. -/
def digitsVal (ds : List Char) : Nat :=
  ds.foldl (fun n c => n * 10 + (c.toNat - '0'.toNat)) 0

/-- String.prototype.split on the plus character (JavaScript semantics: an
empty string yields one empty part). -/
def splitOnPlusAux (acc : List Char) : List Char → List (List Char)
  | [] => [acc.reverse]
  | '+' :: rest => acc.reverse :: splitOnPlusAux [] rest
  | c :: rest => splitOnPlusAux (c :: acc) rest

def splitOnPlus (s : List Char) : List (List Char) :=
  splitOnPlusAux [] s

structure ParsedCommand where
  buttons : List (List Char)
  durationMs : Nat
  normalized : List Char
  repeatCount : Nat
deriving DecidableEq, Repr

/-- isExtendedHold: the normalized input ends with a dash. -/
def comboHold (s : List Char) : Bool :=
  s.getLast? = some '-'

/-- The base text: the input with one trailing dash stripped and re-trimmed
when the hold marker is present. -/
def comboBase (s : List Char) : List Char :=
  if comboHold s then jsTrim s.dropLast else s

/-- The button tokens: split the base on plus and trim each part. -/
def comboParts (s : List Char) : List (List Char) :=
  (splitOnPlus (comboBase s)).map jsTrim

/-- The non-repeat part of parseCommand applied to an already normalized,
non-empty input with no repeat-suffix match: extended-hold detection, combo
split, vocabulary check. -/
def comboParse (s : List Char) : Option ParsedCommand :=
  if (comboBase s).isEmpty then none
  else
    let buttons := comboParts s
    if buttons.length = 0 ∨ 2 < buttons.length then none
    else if ∀ b ∈ buttons, ¬b.isEmpty ∧ b ∈ SUPPORTED_COMMANDS then
      some { buttons := buttons
           , durationMs :=
               if comboHold s then LONG_KEYPRESS_DURATION_MS
               else KEYPRESS_DURATION_MS
           , normalized :=
               List.intercalate ['+'] buttons ++
                 (if comboHold s then ['-'] else [])
           , repeatCount := 1 }
    else none

/-- parseCommand with allowCommandSpam false: when the repeat regex matches,
the allow check fails immediately, so no recursion happens. -/
def parseCommandNoSpam (raw : List Char) : Option ParsedCommand :=
  let s := normalizeCommand raw
  if s.isEmpty then none
  else
    match spamMatch s with
    | some _ => none
    | none => comboParse s

/-- parseCommand(raw, options): the inner recursive call always passes
allowCommandSpam false, which is parseCommandNoSpam (see
parseCommand_false_eq). -/
def parseCommand (raw : List Char) (allowCommandSpam : Bool) :
    Option ParsedCommand :=
  let s := normalizeCommand raw
  if s.isEmpty then none
  else
    match spamMatch s with
    | some (commandRaw, repeatRaw) =>
      if allowCommandSpam then
        let repeatCount := digitsVal repeatRaw
        if repeatCount < 2 ∨ MAX_COMMAND_SPAM_REPEAT < repeatCount then none
        else
          match parseCommandNoSpam commandRaw with
          | some baseCommand =>
            some { buttons := baseCommand.buttons
                 , durationMs := baseCommand.durationMs
                 , normalized := baseCommand.normalized
                 , repeatCount := repeatCount }
          | none => none
      else none
    | none => comboParse s

/-- parseCommand on a Lean string literal. -/
def parseCommandS (raw : String) (allowCommandSpam : Bool) :
    Option ParsedCommand :=
  parseCommand raw.data allowCommandSpam

/-- Decidable check that re-parsing the normalized form of an accepted
button list (with optional hold marker) reproduces it with repeatCount
one. -/
def reparseCheck (bs : List (List Char)) (hold : Bool) : Bool :=
  decide (parseCommand
      (List.intercalate ['+'] bs ++ (if hold then ['-'] else [])) false =
    some { buttons := bs
         , durationMs := if hold then LONG_KEYPRESS_DURATION_MS
                         else KEYPRESS_DURATION_MS
         , normalized := List.intercalate ['+'] bs ++
             (if hold then ['-'] else [])
         , repeatCount := 1 })

/-- The reparse check over the whole vocabulary: every single button and
every two-button combo, with and without the hold marker. -/
def reparseChecks : Bool :=
  SUPPORTED_COMMANDS.all fun b1 =>
    reparseCheck [b1] true && reparseCheck [b1] false &&
    SUPPORTED_COMMANDS.all fun b2 =>
      reparseCheck [b1, b2] true && reparseCheck [b1, b2] false

/-! ## Command queue -/

inductive QueueStatus where
  | queued
  | active
  | done
  | error
deriving DecidableEq, Repr

/-- A queue item.  The ref field models JavaScript heap object identity (the
consumer loop holds a reference to the item it is dispatching); it is not
part of the source data model. -/
structure QueueItem where
  ref : Nat
  id : List Char
  did : List Char
  user : List Char
  handle : Option (List Char)
  avatarUrl : Option (List Char)
  command : List Char
  status : QueueStatus
  createdAt : Int
deriving DecidableEq, Repr

/-- trimQueue: drop the overflow from the head when over capacity. -/
def trimQueue (q : List QueueItem) : List QueueItem :=
  if q.length ≤ MAX_QUEUE_ITEMS then q
  else q.drop (q.length - MAX_QUEUE_ITEMS)

/-- enqueueSingleCommand's effect on the stored queue: push to the tail,
then enforce capacity (the broadcast and consumer wake have no effect on the
stored sequence). -/
def enqueueSingleCommand (q : List QueueItem) (item : QueueItem) :
    List QueueItem :=
  trimQueue (q ++ [item])

/-- A concrete sequence of 41 distinct queued items used to exercise the
capacity bound. -/
def c2WitnessItems : List QueueItem :=
  (List.range 41).map fun n =>
    { ref := n, id := [], did := [], user := [], handle := none,
      avatarUrl := none, command := [], status := QueueStatus.queued,
      createdAt := 0 }

/-- The consumer's selection: the first (oldest) item still queued. -/
def selectNext (q : List QueueItem) : Option QueueItem :=
  q.find? (fun it => it.status = QueueStatus.queued)

/-- Mark the first queued item with the given status (the consumer mutates
the object returned by find). -/
def markFirstQueued (st : QueueStatus) : List QueueItem → List QueueItem
  | [] => []
  | it :: rest =>
    if it.status = QueueStatus.queued then { it with status := st } :: rest
    else it :: markFirstQueued st rest

/-- Set the status of the item the consumer holds a reference to, if it is
still stored (identified by its ref). -/
def setStatusByRef (r : Nat) (st : QueueStatus) (q : List QueueItem) :
    List QueueItem :=
  q.map (fun it => if it.ref = r then { it with status := st } else it)

/-- Control position of the single consumer loop: not running, at the top of
the while loop, or suspended awaiting the executor for the item with the
given ref. -/
inductive ConsumerPC where
  | idle
  | loopTop
  | dispatching (r : Nat)
deriving DecidableEq, Repr

/-- Global mutable state relevant to the queue: the stored queue, the
activeCommandId variable, the processingQueue reentrancy flag, the consumer
position, and a fresh-reference counter modelling object allocation. -/
structure SysState where
  queue : List QueueItem
  activeCommandId : Option (List Char)
  processing : Bool
  consumer : ConsumerPC
  nextRef : Nat
deriving DecidableEq, Repr

/-- A processQueue call: a no-op while the reentrancy flag is set, otherwise
it sets the flag and starts the loop. -/
def stepWake (s : SysState) : SysState :=
  if s.processing then s
  else { s with processing := true, consumer := ConsumerPC.loopTop }

/-- One iteration head of the consumer loop: find the oldest queued item; if
none, clear the active marker, clear the flag and stop; if its stored command
no longer parses (allowCommandSpam absent, hence false), mark it error and
loop; otherwise mark it active, record it as current and invoke the
executor. -/
def stepConsume (s : SysState) : SysState :=
  match s.consumer with
  | ConsumerPC.loopTop =>
    match selectNext s.queue with
    | none =>
      { s with activeCommandId := none, processing := false,
               consumer := ConsumerPC.idle }
    | some next =>
      match parseCommand next.command false with
      | none => { s with queue := markFirstQueued QueueStatus.error s.queue }
      | some _ =>
        { s with queue := markFirstQueued QueueStatus.active s.queue,
                 activeCommandId := some next.id,
                 consumer := ConsumerPC.dispatching next.ref }
  | _ => s

/-- The executor settles (success or failure): the dispatched item is marked
done or error, the active marker is cleared, and after the fixed
inter-command delay the loop returns to its top. -/
def stepFinish (ok : Bool) (s : SysState) : SysState :=
  match s.consumer with
  | ConsumerPC.dispatching r =>
    { s with
        queue :=
          setStatusByRef r
            (if ok then QueueStatus.done else QueueStatus.error) s.queue,
        activeCommandId := none,
        consumer := ConsumerPC.loopTop }
  | _ => s

/-- enqueueSingleCommand's append of a freshly built item (buildQueueItem
always produces status queued; the fresh ref models the new object). -/
def stepEnqueue (item : QueueItem) (s : SysState) : SysState :=
  { s with
      queue :=
        enqueueSingleCommand s.queue
          { item with ref := s.nextRef, status := QueueStatus.queued },
      nextRef := s.nextRef + 1 }

/-- Events that can occur between the consumer's suspension points. -/
inductive QEvent where
  | wake
  | consume
  | finish (ok : Bool)
  | enq (item : QueueItem)
deriving Repr

def qstep : QEvent → SysState → SysState
  | QEvent.wake => stepWake
  | QEvent.consume => stepConsume
  | QEvent.finish ok => stepFinish ok
  | QEvent.enq item => stepEnqueue item

def initState : SysState :=
  { queue := [], activeCommandId := none, processing := false,
    consumer := ConsumerPC.idle, nextRef := 0 }

def runEvents (evs : List QEvent) : SysState :=
  evs.foldl (fun s e => qstep e s) initState

def countActive (q : List QueueItem) : Nat :=
  (q.filter (fun it => it.status = QueueStatus.active)).length

/-- The safety invariant maintained by every event: stored refs are fresh
and pairwise distinct, an active item exists only while the consumer is
dispatching precisely that item, and the reentrancy flag is set exactly
while the consumer loop is running. -/
def SysInv (s : SysState) : Prop :=
  (∀ it ∈ s.queue, it.ref < s.nextRef) ∧
  (s.queue.map (fun it => it.ref)).Nodup ∧
  (∀ it ∈ s.queue, it.status = QueueStatus.active →
     s.consumer = ConsumerPC.dispatching it.ref) ∧
  (s.processing = true ↔ s.consumer ≠ ConsumerPC.idle)

/-- An item already marked error, in front of a queued item, used to witness
the selection rule. -/
def c3ErrItem : QueueItem :=
  { ref := 0, id := "e".data, did := [], user := [], handle := none,
    avatarUrl := none, command := "up".data, status := QueueStatus.error,
    createdAt := 0 }

def c3QueuedItem : QueueItem :=
  { ref := 1, id := "q".data, did := [], user := [], handle := none,
    avatarUrl := none, command := "a".data, status := QueueStatus.queued,
    createdAt := 1 }

/-! ## Chatter activity tracker -/

structure ChatterEntry where
  did : List Char
  createdAt : Int
deriving DecidableEq, Repr

/-- countUniqueChattersInWindow: evict expired entries from the head of the
activity sequence, then count distinct participant ids among the remainder.
Returns the updated sequence together with the count (the source mutates the
module-level array in place). -/
def countUniqueChattersInWindow (act : List ChatterEntry) (now : Int) :
    List ChatterEntry × Nat :=
  let remaining :=
    act.dropWhile (fun e => e.createdAt < now - CHATTER_WINDOW_MS)
  (remaining, ((remaining.map (fun e => e.did)).dedup).length)

/-- recordChatterAndCountUnique: append, then read. -/
def recordChatterAndCountUnique (act : List ChatterEntry) (did : List Char)
    (now : Int) : List ChatterEntry × Nat :=
  countUniqueChattersInWindow (act ++ [{ did := did, createdAt := now }]) now

/-- The spamAbility block of an overlay snapshot. -/
structure SpamAbility where
  enabled : Bool
  uniqueChatters : Nat
  threshold : Nat
  windowMinutes : Nat
deriving DecidableEq, Repr

/-- The anti-spam gate part of snapshot(): it reads the unique-chatter count
(through the evicting reader) and returns the resulting tracker state next
to the displayed block. -/
def snapshotSpamAbility (act : List ChatterEntry) (now : Int) :
    List ChatterEntry × SpamAbility :=
  let r := countUniqueChattersInWindow act now
  (r.1,
   { enabled := r.2 < MIN_UNIQUE_CHATTERS_FOR_NO_SPAM
   , uniqueChatters := r.2
   , threshold := MIN_UNIQUE_CHATTERS_FOR_NO_SPAM
   , windowMinutes := 10 })

/-! ## Identity cache -/

structure ResolvedIdentity where
  did : List Char
  handle : Option (List Char)
  displayName : Option (List Char)
  avatarUrl : Option (List Char)
deriving DecidableEq, Repr

/-- The identity cache and in-flight registry.  The cache Map is modelled as
an association list (newest binding first); startedCalls counts external
resolution calls started, the observable C8 talks about. -/
structure IdCacheState where
  cache : List (List Char × ResolvedIdentity × Int)
  inflight : List (List Char)
  startedCalls : Nat
deriving DecidableEq, Repr

def cacheGet (st : IdCacheState) (did : List Char) :
    Option (ResolvedIdentity × Int) :=
  (st.cache.find? (fun e => e.1 = did)).map (fun e => e.2)

/-- hydrateIdentity's synchronous part: on a fresh cache hit, reapply and
return; if a lookup is already in flight for the id, return; otherwise
register the id as in flight and start the external call.  The Bool reports
whether an external call was started. -/
def hydrateIdentity (st : IdCacheState) (did : List Char) (now : Int) :
    IdCacheState × Bool :=
  if (match cacheGet st did with
      | some c => decide (now < c.2)
      | none => false) = true then (st, false)
  else if did ∈ st.inflight then (st, false)
  else ({ st with inflight := did :: st.inflight,
                  startedCalls := st.startedCalls + 1 }, true)

/-- Completion of an external lookup: a non-empty result is stored with the
fixed TTL; in every case the in-flight marker is removed. -/
def completeLookup (st : IdCacheState) (did : List Char)
    (result : Option ResolvedIdentity) (now : Int) : IdCacheState :=
  let st1 :=
    match result with
    | some ident =>
      { st with cache :=
          (did, ident, now + IDENTITY_CACHE_TTL_MS) ::
            st.cache.filter (fun e => ¬e.1 = did) }
    | none => st
  { st1 with inflight := st1.inflight.filter (fun d => ¬d = did) }

/-! ## Repeat expansion timing -/

/-- The queue-append events produced by enqueueCommand for one arriving
command: the first occurrence is appended at the arrival time, and each of
the remaining repeatCount - 1 occurrences is appended after k further fixed
delays. -/
def expandEnqueues (t : Int) (cmd : ParsedCommand) :
    List (Int × List Char) :=
  (t, cmd.normalized) ::
    (List.range (cmd.repeatCount - 1)).map
      (fun k => (t + ((k : Int) + 1) * SPAM_REPEAT_DELAY_MS, cmd.normalized))

/-- All queue-append events produced by a list of command arrivals. -/
def scheduleEnqueues (arrivals : List (Int × ParsedCommand)) :
    List (Int × List Char) :=
  arrivals.flatMap (fun a => expandEnqueues a.1 a.2)

/-- Stable insertion by fire time: an event fires after every event with a
strictly earlier time and after already-listed events with the same time. -/
def insertByTime (x : Int × List Char) :
    List (Int × List Char) → List (Int × List Char)
  | [] => [x]
  | y :: rest =>
    if y.1 < x.1 then y :: insertByTime x rest else x :: y :: rest

/-- Stable sort of append events by fire time: the order in which the queue
receives them. -/
def sortByTime : List (Int × List Char) → List (Int × List Char)
  | [] => []
  | x :: rest => insertByTime x (sortByTime rest)

/-! ## Parser lemmas -/

theorem spamMatch_ne_nil {s : List Char} {x : List Char × List Char}
    (h : spamMatch s = some x) : s.isEmpty = false := by
  cases s with
  | nil => simp [spamMatch, spamScan] at h
  | cons c rest => rfl

theorem comboParts_of_base_empty {s : List Char}
    (h : (comboBase s).isEmpty = true) : comboParts s = [[]] := by
  have hb : comboBase s = [] := by
    cases hcb : comboBase s with
    | nil => rfl
    | cons c r => rw [hcb] at h; simp [List.isEmpty] at h
  unfold comboParts
  rw [hb]
  rfl

theorem comboParse_isSome_iff (s : List Char) :
    (comboParse s).isSome = true ↔
      (1 ≤ (comboParts s).length ∧ (comboParts s).length ≤ 2 ∧
       ∀ b ∈ comboParts s, ¬b.isEmpty ∧ b ∈ SUPPORTED_COMMANDS) := by
  unfold comboParse
  by_cases h1 : (comboBase s).isEmpty = true
  · rw [if_pos h1]
    have hp := comboParts_of_base_empty h1
    simp [hp]
  · rw [if_neg h1]
    by_cases h2 : (comboParts s).length = 0 ∨ 2 < (comboParts s).length
    · rw [if_pos h2]
      simp only [Option.isSome_none, Bool.false_eq_true, false_iff, not_and]
      intro hl1 hl2
      rcases h2 with h | h
      · omega
      · intro _; omega
    · rw [if_neg h2]
      by_cases h3 : ∀ b ∈ comboParts s, ¬b.isEmpty ∧ b ∈ SUPPORTED_COMMANDS
      · rw [if_pos h3]
        simp only [Option.isSome_some, true_iff]
        push_neg at h2
        exact ⟨by omega, by omega, h3⟩
      · rw [if_neg h3]
        simp only [Option.isSome_none, Bool.false_eq_true, false_iff, not_and]
        intro _ _
        exact h3

theorem comboParse_eq_some {s : List Char} {p : ParsedCommand}
    (h : comboParse s = some p) :
    p.buttons = comboParts s ∧
    p.durationMs =
      (if comboHold s then LONG_KEYPRESS_DURATION_MS
       else KEYPRESS_DURATION_MS) ∧
    p.normalized =
      List.intercalate ['+'] (comboParts s) ++
        (if comboHold s then ['-'] else []) ∧
    p.repeatCount = 1 := by
  unfold comboParse at h
  by_cases h1 : (comboBase s).isEmpty = true
  · rw [if_pos h1] at h
    cases h
  · rw [if_neg h1] at h
    by_cases h2 : (comboParts s).length = 0 ∨ 2 < (comboParts s).length
    · rw [if_pos h2] at h
      cases h
    · rw [if_neg h2] at h
      by_cases h3 : ∀ b ∈ comboParts s, ¬b.isEmpty ∧ b ∈ SUPPORTED_COMMANDS
      · rw [if_pos h3] at h
        cases h
        exact ⟨rfl, rfl, rfl, rfl⟩
      · rw [if_neg h3] at h
        cases h

theorem parseCommand_of_empty {raw : List Char} (allow : Bool)
    (he : (normalizeCommand raw).isEmpty = true) :
    parseCommand raw allow = none := by
  simp [parseCommand, he]

theorem parseCommand_of_no_spam {raw : List Char} (allow : Bool)
    (he : (normalizeCommand raw).isEmpty = false)
    (hns : spamMatch (normalizeCommand raw) = none) :
    parseCommand raw allow = comboParse (normalizeCommand raw) := by
  simp [parseCommand, he, hns]

/-- C4 (amended: the source trims each plus-separated part before the
vocabulary check, so the accepted parts and the normalized string are built
from the trimmed tokens): for every input without a repeat-suffix match,
after trimming, lowercasing and stripping one trailing dash (which selects
the long duration), parsing succeeds exactly when splitting on plus yields
one or two parts each of which, after trimming, is a non-empty member of the
ten-symbol vocabulary; on success the buttons are those tokens, the duration
is long exactly when the hold marker was present, normalized is the
plus-joined tokens with the dash re-appended, and repeatCount is one. -/
theorem claim_C4_combo_form (raw : List Char) (allow : Bool)
    (hns : spamMatch (normalizeCommand raw) = none) :
    ((parseCommand raw allow).isSome = true ↔
      (1 ≤ (comboParts (normalizeCommand raw)).length ∧
       (comboParts (normalizeCommand raw)).length ≤ 2 ∧
       ∀ b ∈ comboParts (normalizeCommand raw),
         ¬b.isEmpty ∧ b ∈ SUPPORTED_COMMANDS)) ∧
    (∀ p, parseCommand raw allow = some p →
      p.buttons = comboParts (normalizeCommand raw) ∧
      p.durationMs =
        (if comboHold (normalizeCommand raw) then LONG_KEYPRESS_DURATION_MS
         else KEYPRESS_DURATION_MS) ∧
      p.normalized =
        List.intercalate ['+'] (comboParts (normalizeCommand raw)) ++
          (if comboHold (normalizeCommand raw) then ['-'] else []) ∧
      p.repeatCount = 1) := by
  by_cases he : (normalizeCommand raw).isEmpty = true
  · have hn := parseCommand_of_empty allow he
    have hb : (comboBase (normalizeCommand raw)).isEmpty = true := by
      have : normalizeCommand raw = [] := by
        cases h : normalizeCommand raw with
        | nil => rfl
        | cons c r => rw [h] at he; simp [List.isEmpty] at he
      rw [comboBase, this]
      have : comboHold ([] : List Char) = false := rfl
      rw [this]
      rfl
    have hp := comboParts_of_base_empty hb
    constructor
    · rw [hn, hp]
      simp
    · intro p hp'
      rw [hn] at hp'
      cases hp'
  · have he' : (normalizeCommand raw).isEmpty = false := by
      cases h : (normalizeCommand raw).isEmpty
      · rfl
      · exact absurd h he
    have hc := parseCommand_of_no_spam allow he' hns
    constructor
    · rw [hc]
      exact comboParse_isSome_iff (normalizeCommand raw)
    · intro p hp'
      rw [hc] at hp'
      exact comboParse_eq_some hp'

/-- Witness for C4 at the spec's example: parsing the combo with a hold
suffix yields the two buttons, the long duration and the normalized string
with the dash re-appended. -/
theorem claim_C4_witness :
    spamMatch (normalizeCommand "b+right-".data) = none ∧
    ∃ p, parseCommandS "b+right-" false = some p ∧
      p.buttons = ["b".data, "right".data] ∧
      p.durationMs = LONG_KEYPRESS_DURATION_MS ∧
      p.normalized = "b+right-".data ∧ p.repeatCount = 1 := by
  have hns : spamMatch (normalizeCommand "b+right-".data) = none := by decide
  have h := claim_C4_combo_form "b+right-".data false hns
  have hsome : (parseCommand "b+right-".data false).isSome = true :=
    h.1.mpr (by decide)
  obtain ⟨p, hp⟩ := Option.isSome_iff_exists.mp hsome
  refine ⟨hns, p, hp, ?_⟩
  have hf := h.2 p hp
  refine ⟨?_, ?_, ?_, hf.2.2.2⟩
  · rw [hf.1]; decide
  · rw [hf.2.1]; decide
  · rw [hf.2.2.1]; decide

/-- The claim's literal reading is refuted by the source: the input a + b
(with spaces around the plus) is accepted with buttons a and b even though
the untrimmed parts produced by splitting the remainder on plus are not
members of the vocabulary, and the normalized string differs from the
remainder. -/
theorem claim_C4_counterexample :
    parseCommandS "a + b" false =
      some { buttons := ["a".data, "b".data], durationMs := 80,
             normalized := "a+b".data, repeatCount := 1 } ∧
    ¬(∀ part ∈ splitOnPlus (normalizeCommand "a + b".data),
        ¬part.isEmpty ∧ part ∈ SUPPORTED_COMMANDS) := by
  constructor
  · decide
  · decide

theorem parseCommand_of_spam {raw : List Char} (allow : Bool)
    {base ds : List Char}
    (hm : spamMatch (normalizeCommand raw) = some (base, ds)) :
    parseCommand raw allow =
      (if allow then
         (if digitsVal ds < 2 ∨ MAX_COMMAND_SPAM_REPEAT < digitsVal ds then
            none
          else
            match parseCommandNoSpam base with
            | some b =>
              some { buttons := b.buttons, durationMs := b.durationMs,
                     normalized := b.normalized,
                     repeatCount := digitsVal ds }
            | none => none)
       else none) := by
  have he := spamMatch_ne_nil hm
  simp [parseCommand, he, hm]

/-- C5: for every input whose normalization matches the repeat-suffix
pattern base x N, parsing returns a result exactly when the repeat feature
is allowed, the digit group's value N lies in the interval from 2 to 100,
and the base parses with the repeat suffix disabled; on success the result
copies the base's buttons, duration and normalized string and sets
repeatCount to N. -/
theorem claim_C5_repeat_form (raw : List Char) (allow : Bool)
    (base ds : List Char)
    (hm : spamMatch (normalizeCommand raw) = some (base, ds)) :
    ((parseCommand raw allow).isSome = true ↔
      (allow = true ∧ 2 ≤ digitsVal ds ∧
       digitsVal ds ≤ MAX_COMMAND_SPAM_REPEAT ∧
       (parseCommandNoSpam base).isSome = true)) ∧
    (∀ p, parseCommand raw allow = some p →
      ∃ b, parseCommandNoSpam base = some b ∧
        p.buttons = b.buttons ∧ p.durationMs = b.durationMs ∧
        p.normalized = b.normalized ∧ p.repeatCount = digitsVal ds) := by
  rw [parseCommand_of_spam allow hm]
  cases allow with
  | false =>
    constructor
    · simp
    · intro p hp
      cases hp
  | true =>
    by_cases hr : digitsVal ds < 2 ∨ MAX_COMMAND_SPAM_REPEAT < digitsVal ds
    · rw [if_pos rfl, if_pos hr]
      constructor
      · simp only [Option.isSome_none, Bool.false_eq_true, false_iff,
          not_and]
        intro _ h2 h3
        rcases hr with h | h
        · omega
        · intro _; omega
      · intro p hp
        cases hp
    · rw [if_pos rfl, if_neg hr]
      push_neg at hr
      cases hb : parseCommandNoSpam base with
      | none =>
        constructor
        · simp
        · intro p hp
          cases hp
      | some b =>
        constructor
        · simp only [Option.isSome_some, true_iff]
          exact ⟨by simp, by omega, by omega, by simp⟩
        · intro p hp
          cases hp
          exact ⟨b, rfl, rfl, rfl, rfl, rfl⟩

/-- Witness for C5 at the spec's examples: a x5 with repeats allowed gives
repeatCount 5 and the single button a; a x5 with repeats disallowed and
a x1 are rejected. -/
theorem claim_C5_witness :
    spamMatch (normalizeCommand "a x5".data) = some ("a".data, "5".data) ∧
    (∃ p, parseCommandS "a x5" true = some p ∧
       p.buttons = ["a".data] ∧ p.repeatCount = 5) ∧
    parseCommandS "a x5" false = none ∧
    parseCommandS "a x1" true = none := by
  have hm : spamMatch (normalizeCommand "a x5".data) =
      some ("a".data, "5".data) := by decide
  have h := claim_C5_repeat_form "a x5".data true "a".data "5".data hm
  have hsome : (parseCommand "a x5".data true).isSome = true :=
    h.1.mpr ⟨rfl, by decide, by decide, by decide⟩
  obtain ⟨p, hp⟩ := Option.isSome_iff_exists.mp hsome
  obtain ⟨b, hb, hb1, _, _, hb4⟩ := h.2 p hp
  refine ⟨hm, ⟨p, hp, ?_, ?_⟩, by decide, by decide⟩
  · have hbv : parseCommandNoSpam "a".data =
        some { buttons := ["a".data], durationMs := 80,
               normalized := "a".data, repeatCount := 1 } := by decide
    rw [hbv] at hb
    rw [hb1, ← Option.some.inj hb]
  · rw [hb4]
    decide

/-! ## Queue capacity lemmas -/

theorem trimQueue_eq_drop (q : List QueueItem) :
    trimQueue q = q.drop (q.length - MAX_QUEUE_ITEMS) := by
  unfold trimQueue
  split_ifs with h
  · have h0 : q.length - MAX_QUEUE_ITEMS = 0 := by omega
    rw [h0, List.drop_zero]
  · rfl

theorem drop_to_last_of_drop {α : Type} (y : List α) (j C : Nat)
    (hj : j = 0 ∨ j + C ≤ y.length) :
    (y.drop j).drop ((y.drop j).length - C) = y.drop (y.length - C) := by
  rcases hj with hj | hj
  · rw [hj, List.drop_zero]
  · rw [List.length_drop, List.drop_drop]
    congr 1
    omega

theorem foldl_enqueue_drop (xs : List QueueItem) :
    ∀ q : List QueueItem, q.length ≤ MAX_QUEUE_ITEMS →
      List.foldl enqueueSingleCommand q xs =
        (q ++ xs).drop ((q ++ xs).length - MAX_QUEUE_ITEMS) := by
  induction xs with
  | nil =>
    intro q hq
    have h0 : (q ++ []).length - MAX_QUEUE_ITEMS = 0 := by
      simp
      omega
    rw [List.foldl_nil, h0, List.drop_zero, List.append_nil]
  | cons x xs ih =>
    intro q hq
    rw [List.foldl_cons]
    have h1 : enqueueSingleCommand q x =
        (q ++ [x]).drop ((q ++ [x]).length - MAX_QUEUE_ITEMS) :=
      trimQueue_eq_drop _
    rw [h1]
    have hlen : ((q ++ [x]).drop
        ((q ++ [x]).length - MAX_QUEUE_ITEMS)).length ≤ MAX_QUEUE_ITEMS := by
      rw [List.length_drop]
      omega
    rw [ih _ hlen]
    have hk : (q ++ [x]).length - MAX_QUEUE_ITEMS ≤ (q ++ [x]).length := by
      omega
    rw [← List.drop_append_of_le_length hk]
    rw [drop_to_last_of_drop ((q ++ [x]) ++ xs) _ MAX_QUEUE_ITEMS ?side]
    case side =>
      have h40 : MAX_QUEUE_ITEMS = 40 := rfl
      simp only [List.length_append, List.length_cons, List.length_nil]
      omega
    have hs : (q ++ [x]) ++ xs = q ++ x :: xs := by
      rw [List.append_assoc, List.singleton_append]
    rw [hs]

/-- C2: starting from the empty queue, any sequence of more than 40 enqueue
calls leaves the stored queue holding exactly the 40 most recently enqueued
items in arrival order: the overflow is dropped from the head. -/
theorem claim_C2_capacity (items : List QueueItem)
    (h : MAX_QUEUE_ITEMS < items.length) :
    List.foldl enqueueSingleCommand [] items =
      items.drop (items.length - MAX_QUEUE_ITEMS) ∧
    (List.foldl enqueueSingleCommand [] items).length = MAX_QUEUE_ITEMS := by
  have hf := foldl_enqueue_drop items [] (by simp)
  rw [List.nil_append] at hf
  refine ⟨hf, ?_⟩
  rw [hf, List.length_drop]
  omega

/-- Witness for C2: pushing 41 distinct items through the enqueue path
leaves the last 40 of them, in order. -/
theorem claim_C2_witness :
    MAX_QUEUE_ITEMS < c2WitnessItems.length ∧
    List.foldl enqueueSingleCommand [] c2WitnessItems =
      c2WitnessItems.drop 1 := by
  have h : MAX_QUEUE_ITEMS < c2WitnessItems.length := by decide
  have h2 := (claim_C2_capacity c2WitnessItems h).1
  rw [show c2WitnessItems.length - MAX_QUEUE_ITEMS = 1 from by decide] at h2
  exact ⟨h, h2⟩

/-! ## Consumer selection lemmas -/

theorem selectNext_spec :
    ∀ (q : List QueueItem) (next : QueueItem),
      selectNext q = some next →
      next.status = QueueStatus.queued ∧
      ∃ i : Fin q.length, q.get i = next ∧
        ∀ j : Fin q.length, (j : Nat) < (i : Nat) →
          (q.get j).status ≠ QueueStatus.queued := by
  intro q
  induction q with
  | nil => intro next h; cases h
  | cons a q ih =>
    intro next h
    rw [selectNext, List.find?_cons] at h
    by_cases ha : a.status = QueueStatus.queued
    · rw [decide_eq_true ha] at h
      cases h
      refine ⟨ha, ⟨0, Nat.succ_pos _⟩, rfl, ?_⟩
      intro j hj
      simp at hj
    · rw [decide_eq_false ha] at h
      obtain ⟨hst, i, hget, hbefore⟩ := ih next h
      refine ⟨hst, ⟨i + 1,
        by have := i.isLt; simp only [List.length_cons]; omega⟩, ?_, ?_⟩
      · simpa using hget
      · intro j hj
        match j with
        | ⟨0, _⟩ => simpa using ha
        | ⟨j' + 1, hj'⟩ =>
          have hj2 : j' < (i : Nat) := by simpa using hj
          have hjq : j' < q.length := by simpa using hj'
          have := hbefore ⟨j', hjq⟩ hj2
          simpa using this

theorem selectNext_cons_of_not_queued {it : QueueItem} {q : List QueueItem}
    (h : it.status ≠ QueueStatus.queued) :
    selectNext (it :: q) = selectNext q := by
  rw [selectNext, List.find?_cons, decide_eq_false h]
  rfl

/-- C3: whenever the consumer's selection returns an item, that item is
queued and occupies the earliest queue position whose status is queued, so
every earlier item has some other status; and an item with any other status
at the head is skipped, leaving the selection over the rest unchanged. -/
theorem claim_C3_oldest_queued :
    (∀ (q : List QueueItem) (next : QueueItem),
       selectNext q = some next →
       next.status = QueueStatus.queued ∧
       ∃ i : Fin q.length, q.get i = next ∧
         ∀ j : Fin q.length, (j : Nat) < (i : Nat) →
           (q.get j).status ≠ QueueStatus.queued) ∧
    (∀ (it : QueueItem) (q : List QueueItem),
       it.status ≠ QueueStatus.queued →
       selectNext (it :: q) = selectNext q) :=
  ⟨selectNext_spec, fun _ _ h => selectNext_cons_of_not_queued h⟩

/-- Witness for C3: with an error item ahead of a queued item, the selection
returns the queued item and the error item does not block it. -/
theorem claim_C3_witness :
    selectNext [c3ErrItem, c3QueuedItem] = some c3QueuedItem ∧
    c3QueuedItem.status = QueueStatus.queued ∧
    selectNext [c3ErrItem, c3QueuedItem] = selectNext [c3QueuedItem] := by
  have h : selectNext [c3ErrItem, c3QueuedItem] = some c3QueuedItem := by
    decide
  refine ⟨h, (claim_C3_oldest_queued.1 _ _ h).1,
    claim_C3_oldest_queued.2 c3ErrItem [c3QueuedItem] (by decide)⟩

/-! ## Queue state machine lemmas -/

theorem markFirstQueued_map_ref (st : QueueStatus) (q : List QueueItem) :
    (markFirstQueued st q).map (fun it => it.ref) =
      q.map (fun it => it.ref) := by
  induction q with
  | nil => rfl
  | cons a q ih =>
    by_cases h : a.status = QueueStatus.queued
    · simp [markFirstQueued, h]
    · simp only [markFirstQueued, if_neg h, List.map_cons]
      rw [ih]

theorem mem_markFirstQueued_of_select (st : QueueStatus) :
    ∀ (q : List QueueItem) (next : QueueItem), selectNext q = some next →
      ∀ it ∈ markFirstQueued st q,
        it = { next with status := st } ∨ it ∈ q := by
  intro q
  induction q with
  | nil => intro next h; cases h
  | cons a q ih =>
    intro next h it hit
    by_cases ha : a.status = QueueStatus.queued
    · rw [selectNext, List.find?_cons, decide_eq_true ha] at h
      cases h
      simp only [markFirstQueued, if_pos ha] at hit
      rcases List.mem_cons.mp hit with he | hm
      · exact Or.inl he
      · exact Or.inr (List.mem_cons_of_mem _ hm)
    · have h' : selectNext q = some next := by
        rw [← selectNext_cons_of_not_queued ha]
        exact h
      simp only [markFirstQueued, if_neg ha] at hit
      rcases List.mem_cons.mp hit with he | hm
      · exact Or.inr (he ▸ List.mem_cons_self _ _)
      · rcases ih next h' it hm with h1 | h1
        · exact Or.inl h1
        · exact Or.inr (List.mem_cons_of_mem _ h1)

theorem setStatusByRef_map_ref (r : Nat) (st : QueueStatus)
    (q : List QueueItem) :
    (setStatusByRef r st q).map (fun it => it.ref) =
      q.map (fun it => it.ref) := by
  induction q with
  | nil => rfl
  | cons a q ih =>
    simp only [setStatusByRef, List.map_cons] at ih ⊢
    have hhead : (if a.ref = r then { a with status := st } else a).ref =
        a.ref := by
      split_ifs <;> rfl
    rw [hhead, ih]

theorem sysInv_init : SysInv initState := by
  refine ⟨?_, ?_, ?_, ?_⟩ <;> simp [initState, SysInv]

theorem stepConsume_of_not_loopTop {s : SysState}
    (h : s.consumer ≠ ConsumerPC.loopTop) : stepConsume s = s := by
  unfold stepConsume
  cases hc : s.consumer with
  | idle => rfl
  | loopTop => exact absurd hc h
  | dispatching r => rfl

theorem sysInv_step (e : QEvent) {s : SysState} (h : SysInv s) :
    SysInv (qstep e s) := by
  obtain ⟨h1, h2, h3, h4⟩ := h
  cases e with
  | wake =>
    show SysInv (stepWake s)
    unfold stepWake
    split_ifs with hp
    · exact ⟨h1, h2, h3, h4⟩
    · have hidle : s.consumer = ConsumerPC.idle := by
        by_contra hne
        exact hp (h4.mpr hne)
      refine ⟨h1, h2, ?_, by simp⟩
      intro it hit ha
      have hd := h3 it hit ha
      rw [hidle] at hd
      simp at hd
  | consume =>
    show SysInv (stepConsume s)
    by_cases hc : s.consumer = ConsumerPC.loopTop
    case neg =>
      rw [stepConsume_of_not_loopTop hc]
      exact ⟨h1, h2, h3, h4⟩
    case pos =>
      cases hsel : selectNext s.queue with
      | none =>
        have hs : stepConsume s =
            { s with activeCommandId := none, processing := false,
                     consumer := ConsumerPC.idle } := by
          simp only [stepConsume, hc, hsel]
        rw [hs]
        refine ⟨h1, h2, ?_, by simp⟩
        intro it hit ha
        have hd := h3 it hit ha
        rw [hc] at hd
        simp at hd
      | some next =>
        cases hparse : parseCommand next.command false with
        | none =>
          have hs : stepConsume s =
              { s with queue := markFirstQueued QueueStatus.error s.queue }
              := by
            simp only [stepConsume, hc, hsel, hparse]
          rw [hs]
          refine ⟨?_, ?_, ?_, h4⟩
          · intro it hit
            have hm : it.ref ∈
                (markFirstQueued QueueStatus.error s.queue).map
                  (fun x => x.ref) :=
              List.mem_map_of_mem _ hit
            rw [markFirstQueued_map_ref] at hm
            obtain ⟨it0, hit0, href⟩ := List.mem_map.mp hm
            rw [← href]
            exact h1 it0 hit0
          · rw [markFirstQueued_map_ref]
            exact h2
          · intro it hit ha
            rcases mem_markFirstQueued_of_select QueueStatus.error s.queue
                next hsel it hit with he | hmem
            · rw [he] at ha
              simp at ha
            · have hd := h3 it hmem ha
              rw [hc] at hd
              simp at hd
        | some pc =>
          have hs : stepConsume s =
              { s with queue := markFirstQueued QueueStatus.active s.queue,
                       activeCommandId := some next.id,
                       consumer := ConsumerPC.dispatching next.ref } := by
            simp only [stepConsume, hc, hsel, hparse]
          rw [hs]
          refine ⟨?_, ?_, ?_, ?_⟩
          · intro it hit
            have hm : it.ref ∈
                (markFirstQueued QueueStatus.active s.queue).map
                  (fun x => x.ref) :=
              List.mem_map_of_mem _ hit
            rw [markFirstQueued_map_ref] at hm
            obtain ⟨it0, hit0, href⟩ := List.mem_map.mp hm
            rw [← href]
            exact h1 it0 hit0
          · rw [markFirstQueued_map_ref]
            exact h2
          · intro it hit ha
            rcases mem_markFirstQueued_of_select QueueStatus.active s.queue
                next hsel it hit with he | hmem
            · rw [he]
            · have hd := h3 it hmem ha
              rw [hc] at hd
              simp at hd
          · have hp : s.processing = true := h4.mpr (by rw [hc]; simp)
            rw [hp]
            simp
  | finish ok =>
    show SysInv (stepFinish ok s)
    cases hc : s.consumer with
    | idle =>
      have hs : stepFinish ok s = s := by simp only [stepFinish, hc]
      rw [hs]
      exact ⟨h1, h2, h3, h4⟩
    | loopTop =>
      have hs : stepFinish ok s = s := by simp only [stepFinish, hc]
      rw [hs]
      exact ⟨h1, h2, h3, h4⟩
    | dispatching r =>
      have hs : stepFinish ok s =
          { s with
              queue := setStatusByRef r
                (if ok then QueueStatus.done else QueueStatus.error) s.queue,
              activeCommandId := none,
              consumer := ConsumerPC.loopTop } := by
        simp only [stepFinish, hc]
      rw [hs]
      refine ⟨?_, ?_, ?_, ?_⟩
      · intro it hit
        have hm : it.ref ∈
            (setStatusByRef r
              (if ok then QueueStatus.done else QueueStatus.error)
              s.queue).map (fun x => x.ref) :=
          List.mem_map_of_mem _ hit
        rw [setStatusByRef_map_ref] at hm
        obtain ⟨it0, hit0, href⟩ := List.mem_map.mp hm
        rw [← href]
        exact h1 it0 hit0
      · rw [setStatusByRef_map_ref]
        exact h2
      · intro it hit ha
        obtain ⟨it0, hit0, heq⟩ := List.mem_map.mp hit
        by_cases hr : it0.ref = r
        · rw [← heq] at ha
          simp only [hr, if_pos rfl] at ha
          cases ok <;> simp at ha
        · rw [← heq] at ha
          simp only [if_neg hr] at ha
          have hd := h3 it0 hit0 ha
          rw [hc] at hd
          have : r = it0.ref := by
            injection hd
          exact absurd this.symm hr
      · have hp : s.processing = true := h4.mpr (by rw [hc]; simp)
        rw [hp]
        simp
  | enq item =>
    show SysInv (stepEnqueue item s)
    unfold stepEnqueue
    refine ⟨?_, ?_, ?_, h4⟩
    · intro it hit
      have hit' : it ∈ s.queue ++
          [{ item with ref := s.nextRef, status := QueueStatus.queued }] := by
        have hd := hit
        rw [enqueueSingleCommand, trimQueue_eq_drop] at hd
        exact List.mem_of_mem_drop hd
      rcases List.mem_append.mp hit' with hq | hx
      · exact Nat.lt_succ_of_lt (h1 it hq)
      · simp only [List.mem_singleton] at hx
        rw [hx]
        exact Nat.lt_succ_self _
    · rw [enqueueSingleCommand, trimQueue_eq_drop, List.map_drop]
      apply List.Nodup.sublist (List.drop_sublist _ _)
      rw [List.map_append]
      rw [List.nodup_append]
      refine ⟨h2, by simp, ?_⟩
      intro x hx hy
      simp only [List.map_cons, List.map_nil, List.mem_singleton] at hy
      obtain ⟨it0, hit0, href⟩ := List.mem_map.mp hx
      rw [hy] at href
      have := h1 it0 hit0
      omega
    · intro it hit ha
      have hit' : it ∈ s.queue ++
          [{ item with ref := s.nextRef, status := QueueStatus.queued }] := by
        have hd := hit
        rw [enqueueSingleCommand, trimQueue_eq_drop] at hd
        exact List.mem_of_mem_drop hd
      rcases List.mem_append.mp hit' with hq | hx
      · exact h3 it hq ha
      · simp only [List.mem_singleton] at hx
        rw [hx] at ha
        simp at ha


theorem sysInv_foldl :
    ∀ (evs : List QEvent) (s : SysState), SysInv s →
      SysInv (evs.foldl (fun s e => qstep e s) s) := by
  intro evs
  induction evs with
  | nil => intro s h; exact h
  | cons e evs ih =>
    intro s h
    rw [List.foldl_cons]
    exact ih _ (sysInv_step e h)

theorem length_le_one_of_all_eq_nodup {l : List Nat} {r : Nat}
    (hall : ∀ x ∈ l, x = r) (hnd : l.Nodup) : l.length ≤ 1 := by
  match l with
  | [] => simp
  | [x] => simp
  | x :: y :: t =>
    exfalso
    have hx := hall x (by simp)
    have hy := hall y (by simp)
    rw [List.nodup_cons] at hnd
    exact hnd.1 (by rw [hx, ← hy]; exact List.mem_cons_self _ _)

theorem countActive_le_one {s : SysState} (h : SysInv s) :
    countActive s.queue ≤ 1 := by
  obtain ⟨h1, h2, h3, h4⟩ := h
  unfold countActive
  cases hc : s.consumer with
  | dispatching r =>
    have hall : ∀ x ∈ (s.queue.filter
        (fun it => decide (it.status = QueueStatus.active))).map
          (fun it => it.ref), x = r := by
      intro x hx
      obtain ⟨it, hit, href⟩ := List.mem_map.mp hx
      have hmem := List.mem_of_mem_filter hit
      have hst : it.status = QueueStatus.active := by
        have := List.of_mem_filter hit
        simpa using this
      have hd := h3 it hmem hst
      rw [hc] at hd
      have : r = it.ref := by injection hd
      rw [← href, ← this]
    have hnd : ((s.queue.filter
        (fun it => decide (it.status = QueueStatus.active))).map
          (fun it => it.ref)).Nodup :=
      List.Nodup.sublist
        (List.Sublist.map _ (List.filter_sublist _)) h2
    have := length_le_one_of_all_eq_nodup hall hnd
    rw [List.length_map] at this
    exact this
  | idle =>
    have hnil : s.queue.filter
        (fun it => decide (it.status = QueueStatus.active)) = [] := by
      rw [List.filter_eq_nil_iff]
      intro it hmem
      simp only [decide_eq_true_eq]
      intro hst
      have hd := h3 it hmem hst
      rw [hc] at hd
      simp at hd
    rw [hnil]
    simp
  | loopTop =>
    have hnil : s.queue.filter
        (fun it => decide (it.status = QueueStatus.active)) = [] := by
      rw [List.filter_eq_nil_iff]
      intro it hmem
      simp only [decide_eq_true_eq]
      intro hst
      have hd := h3 it hmem hst
      rw [hc] at hd
      simp at hd
    rw [hnil]
    simp

/-- C1: along every event sequence (enqueues, wakes, consumer iterations,
executor completions interleaved arbitrarily) at most one stored item is
active at any observable state; a processQueue wake while the reentrancy
flag is set changes nothing; and while an item is being dispatched the
consumer selects no further item until the executor settles and the item is
marked done or error. -/
theorem claim_C1_single_active :
    (∀ evs : List QEvent, countActive (runEvents evs).queue ≤ 1) ∧
    (∀ s : SysState, s.processing = true → stepWake s = s) ∧
    (∀ (s : SysState) (r : Nat),
       s.consumer = ConsumerPC.dispatching r → stepConsume s = s) := by
  refine ⟨?_, ?_, ?_⟩
  · intro evs
    exact countActive_le_one (sysInv_foldl evs initState sysInv_init)
  · intro s hp
    unfold stepWake
    rw [if_pos hp]
  · intro s r hd
    exact stepConsume_of_not_loopTop (by rw [hd]; simp)

/-- Witness for C1: a concrete run (enqueue, wake, one consumer iteration)
has at most one active item; a wake on a running state and a consumer poke
on a dispatching state are both no-ops. -/
theorem claim_C1_witness :
    countActive (runEvents
      [QEvent.enq c3QueuedItem, QEvent.wake, QEvent.consume]).queue ≤ 1 ∧
    stepWake { queue := [], activeCommandId := none, processing := true,
               consumer := ConsumerPC.loopTop, nextRef := 0 } =
      { queue := [], activeCommandId := none, processing := true,
        consumer := ConsumerPC.loopTop, nextRef := 0 } ∧
    stepConsume { queue := [], activeCommandId := none, processing := true,
                  consumer := ConsumerPC.dispatching 0, nextRef := 0 } =
      { queue := [], activeCommandId := none, processing := true,
        consumer := ConsumerPC.dispatching 0, nextRef := 0 } :=
  ⟨claim_C1_single_active.1 _, claim_C1_single_active.2.1 _ rfl,
   claim_C1_single_active.2.2 _ 0 rfl⟩

/-! ## Activity tracker lemmas -/

theorem dropWhile_eq_filter_of_sorted (now : Int) :
    ∀ act : List ChatterEntry,
      List.Pairwise (fun a b => a.createdAt ≤ b.createdAt) act →
      act.dropWhile
          (fun e => decide (e.createdAt < now - CHATTER_WINDOW_MS)) =
        act.filter
          (fun e => decide (now - CHATTER_WINDOW_MS ≤ e.createdAt)) := by
  intro act
  induction act with
  | nil => intro _; rfl
  | cons a act ih =>
    intro hp
    rw [List.pairwise_cons] at hp
    by_cases ha : a.createdAt < now - CHATTER_WINDOW_MS
    · rw [List.dropWhile_cons_of_pos (by simpa using ha),
        List.filter_cons_of_neg (by simp; omega)]
      exact ih hp.2
    · rw [List.dropWhile_cons_of_neg (by simpa using ha),
        List.filter_cons_of_pos (by simp; omega)]
      have hrest : act.filter
          (fun e => decide (now - CHATTER_WINDOW_MS ≤ e.createdAt)) = act := by
        rw [List.filter_eq_self]
        intro e he
        have := hp.1 e he
        simp
        omega
      rw [hrest]

/-- C6: on every read with the stored activity sequence sorted by
non-decreasing timestamps, the evicting reader leaves exactly the entries
whose age does not exceed the ten-minute window, so every entry older than
the window relative to the read time is evicted and the returned count is
the number of distinct participant ids among the remaining entries. -/
theorem claim_C6_window_eviction (act : List ChatterEntry) (now : Int)
    (hs : List.Pairwise (fun a b => a.createdAt ≤ b.createdAt) act) :
    (countUniqueChattersInWindow act now).1 =
      act.filter (fun e => decide (now - e.createdAt ≤ CHATTER_WINDOW_MS)) ∧
    (∀ e ∈ (countUniqueChattersInWindow act now).1,
       now - e.createdAt ≤ CHATTER_WINDOW_MS) ∧
    (countUniqueChattersInWindow act now).2 =
      (((countUniqueChattersInWindow act now).1.map
        (fun e => e.did)).dedup).length := by
  have h1 : (countUniqueChattersInWindow act now).1 =
      act.filter (fun e => decide (now - e.createdAt ≤ CHATTER_WINDOW_MS))
      := by
    show act.dropWhile _ = _
    rw [dropWhile_eq_filter_of_sorted now act hs]
    apply List.filter_congr
    intro e _
    simp
    omega
  refine ⟨h1, ?_, rfl⟩
  intro e he
  rw [h1] at he
  have := List.of_mem_filter he
  simpa using this

/-- Witness for C6: with one expired and one fresh entry, the read drops the
expired entry and counts the single fresh participant. -/
theorem claim_C6_witness :
    List.Pairwise (fun a b => a.createdAt ≤ b.createdAt)
      [ChatterEntry.mk "a".data 0, ChatterEntry.mk "b".data 600000] ∧
    (countUniqueChattersInWindow
      [ChatterEntry.mk "a".data 0, ChatterEntry.mk "b".data 600000]
      600001).1 = [ChatterEntry.mk "b".data 600000] ∧
    (countUniqueChattersInWindow
      [ChatterEntry.mk "a".data 0, ChatterEntry.mk "b".data 600000]
      600001).2 = 1 := by
  have hs : List.Pairwise (fun a b => a.createdAt ≤ b.createdAt)
      [ChatterEntry.mk "a".data 0, ChatterEntry.mk "b".data 600000] := by
    decide
  refine ⟨hs, ?_, by decide⟩
  rw [(claim_C6_window_eviction _ 600001 hs).1]
  decide

/-- The claim that the snapshot-time gate computation leaves the activity
sequence identical is refuted on a concrete state: with one entry aged past
the window, building the snapshot block evicts it, so the stored sequence
differs before and after. -/
theorem claim_C7_counterexample :
    (snapshotSpamAbility [ChatterEntry.mk "a".data 0] 600001).1 ≠
      [ChatterEntry.mk "a".data 0] := by
  decide

/-- C7 (amended: the overlay snapshot's gate computation records nothing and
never touches live entries, but it shares the evicting reader, so it may
remove already-expired entries from the head): the resulting activity
sequence is always a suffix of the previous one, and, for a sequence sorted
by non-decreasing timestamps, every entry still within the window is
retained. -/
theorem claim_C7_snapshot_mutation (act : List ChatterEntry) (now : Int) :
    List.IsSuffix (snapshotSpamAbility act now).1 act ∧
    (List.Pairwise (fun a b => a.createdAt ≤ b.createdAt) act →
      ∀ e ∈ act, now - e.createdAt ≤ CHATTER_WINDOW_MS →
        e ∈ (snapshotSpamAbility act now).1) := by
  constructor
  · show List.IsSuffix (act.dropWhile _) act
    exact List.dropWhile_suffix _
  · intro hs e he hw
    show e ∈ act.dropWhile _
    rw [dropWhile_eq_filter_of_sorted now act hs]
    apply List.mem_filter.mpr
    refine ⟨he, ?_⟩
    simp
    omega

/-- Witness for C7: on a state with one fresh entry, the snapshot
computation keeps it (a suffix containing the in-window entry). -/
theorem claim_C7_witness :
    List.IsSuffix
      (snapshotSpamAbility [ChatterEntry.mk "a".data 0] 1).1
      [ChatterEntry.mk "a".data 0] ∧
    ChatterEntry.mk "a".data 0 ∈
      (snapshotSpamAbility [ChatterEntry.mk "a".data 0] 1).1 := by
  have h := claim_C7_snapshot_mutation [ChatterEntry.mk "a".data 0] 1
  exact ⟨h.1, h.2 (by decide) _ (by decide) (by decide)⟩

/-! ## Identity cache lemmas -/

/-- C8: for a participant id with no valid (unexpired) cache entry and no
lookup in flight, two hydration requests issued before either completes
start exactly one external call: the first registers the in-flight marker
and starts the call, the second observes the marker and returns without
starting another, leaving the started-call count increased by exactly
one. -/
theorem claim_C8_inflight_dedup (st : IdCacheState) (did : List Char)
    (now now2 : Int)
    (hcache : ∀ c, cacheGet st did = some c → c.2 ≤ now)
    (hnotin : did ∉ st.inflight)
    (hle : now ≤ now2) :
    (hydrateIdentity st did now).2 = true ∧
    (hydrateIdentity (hydrateIdentity st did now).1 did now2).2 = false ∧
    (hydrateIdentity (hydrateIdentity st did now).1 did
        now2).1.startedCalls = st.startedCalls + 1 := by
  have hcond1 : (match cacheGet st did with
      | some c => decide (now < c.2)
      | none => false) = false := by
    cases hcg : cacheGet st did with
    | none => rfl
    | some c =>
      have := hcache c hcg
      simp
      omega
  have h1 : hydrateIdentity st did now =
      ({ st with inflight := did :: st.inflight,
                 startedCalls := st.startedCalls + 1 }, true) := by
    unfold hydrateIdentity
    rw [hcond1]
    simp only [Bool.false_eq_true, if_false]
    rw [if_neg hnotin]
  rw [h1]
  have hcond2 : (match cacheGet
      { st with inflight := did :: st.inflight,
                startedCalls := st.startedCalls + 1 } did with
      | some c => decide (now2 < c.2)
      | none => false) = false := by
    have hsame : cacheGet
        { st with inflight := did :: st.inflight,
                  startedCalls := st.startedCalls + 1 } did =
        cacheGet st did := rfl
    rw [hsame]
    cases hcg : cacheGet st did with
    | none => rfl
    | some c =>
      have := hcache c hcg
      simp
      omega
  have h2 : hydrateIdentity
      { st with inflight := did :: st.inflight,
                startedCalls := st.startedCalls + 1 } did now2 =
      ({ st with inflight := did :: st.inflight,
                 startedCalls := st.startedCalls + 1 }, false) := by
    unfold hydrateIdentity
    rw [hcond2]
    simp only [Bool.false_eq_true, if_false]
    rw [if_pos (List.mem_cons_self _ _)]
  rw [h2]
  exact ⟨rfl, rfl, rfl⟩

/-- Witness for C8: from an empty cache state, two immediate hydration
requests for the same id start exactly one external call. -/
theorem claim_C8_witness :
    (hydrateIdentity ⟨[], [], 0⟩ "d".data 0).2 = true ∧
    (hydrateIdentity (hydrateIdentity ⟨[], [], 0⟩ "d".data 0).1
      "d".data 0).2 = false ∧
    (hydrateIdentity (hydrateIdentity ⟨[], [], 0⟩ "d".data 0).1
      "d".data 0).1.startedCalls = 1 := by
  have h := claim_C8_inflight_dedup ⟨[], [], 0⟩ "d".data 0 0
    (by intro c hc; simp [cacheGet] at hc)
    (by simp)
    (le_refl 0)
  exact h

/-! ## Repeat scheduling -/

/-- C9: a command parsed as a x3 contributes one queue append at its arrival
time and one more after each fixed per-repeat delay; with left, a x3 and b
arriving in that order (b before the first repeat fires), ordering all
appends by fire time yields the dispatch order left, a, b, a, a — the two
extra repeats land behind the intervening b. -/
theorem claim_C9_repeat_scheduling (t1 t2 t3 : Int)
    (pl pa pb : ParsedCommand)
    (hpl : parseCommandS "left" true = some pl)
    (hpa : parseCommandS "a x3" true = some pa)
    (hpb : parseCommandS "b" true = some pb)
    (h12 : t1 ≤ t2) (h23 : t2 ≤ t3)
    (h3r : t3 < t2 + SPAM_REPEAT_DELAY_MS) :
    expandEnqueues t2 pa =
      [(t2, "a".data), (t2 + 140, "a".data), (t2 + 280, "a".data)] ∧
    (sortByTime (scheduleEnqueues [(t1, pl), (t2, pa), (t3, pb)])).map
        Prod.snd =
      ["left".data, "a".data, "b".data, "a".data, "a".data] := by
  have hplc : pl = ⟨["left".data], 80, "left".data, 1⟩ := by
    have h : parseCommandS "left" true =
        some ⟨["left".data], 80, "left".data, 1⟩ := by decide
    exact (Option.some.inj (h.symm.trans hpl)).symm
  have hpac : pa = ⟨["a".data], 80, "a".data, 3⟩ := by
    have h : parseCommandS "a x3" true =
        some ⟨["a".data], 80, "a".data, 3⟩ := by decide
    exact (Option.some.inj (h.symm.trans hpa)).symm
  have hpbc : pb = ⟨["b".data], 80, "b".data, 1⟩ := by
    have h : parseCommandS "b" true =
        some ⟨["b".data], 80, "b".data, 1⟩ := by decide
    exact (Option.some.inj (h.symm.trans hpb)).symm
  subst hplc
  subst hpac
  subst hpbc
  have hW : SPAM_REPEAT_DELAY_MS = 140 := rfl
  rw [hW] at h3r
  have hexp : expandEnqueues t2 ⟨["a".data], 80, "a".data, 3⟩ =
      [(t2, "a".data), (t2 + 140, "a".data), (t2 + 280, "a".data)] := by
    unfold expandEnqueues
    norm_num [SPAM_REPEAT_DELAY_MS, List.range_succ]
  have hexp1 : expandEnqueues t1 ⟨["left".data], 80, "left".data, 1⟩ =
      [(t1, "left".data)] := by
    unfold expandEnqueues
    norm_num
  have hexp3 : expandEnqueues t3 ⟨["b".data], 80, "b".data, 1⟩ =
      [(t3, "b".data)] := by
    unfold expandEnqueues
    norm_num
  refine ⟨hexp, ?_⟩
  have hsched : scheduleEnqueues
      [(t1, (⟨["left".data], 80, "left".data, 1⟩ : ParsedCommand)),
       (t2, ⟨["a".data], 80, "a".data, 3⟩),
       (t3, ⟨["b".data], 80, "b".data, 1⟩)] =
      [(t1, "left".data), (t2, "a".data), (t2 + 140, "a".data),
       (t2 + 280, "a".data), (t3, "b".data)] := by
    simp [scheduleEnqueues, hexp1, hexp, hexp3]
  rw [hsched]
  have h0 : sortByTime
      [(t1, "left".data), (t2, "a".data), (t2 + 140, "a".data),
       (t2 + 280, "a".data), (t3, "b".data)] =
      insertByTime (t1, "left".data)
        (insertByTime (t2, "a".data)
          (insertByTime (t2 + 140, "a".data)
            (insertByTime (t2 + 280, "a".data) [(t3, "b".data)]))) := rfl
  have s2 : insertByTime (t2 + 280, "a".data) [(t3, "b".data)] =
      [(t3, "b".data), (t2 + 280, "a".data)] := by
    simp only [insertByTime]
    rw [if_pos (show t3 < t2 + 280 by omega)]
  have s3 : insertByTime (t2 + 140, "a".data)
      [(t3, "b".data), (t2 + 280, "a".data)] =
      [(t3, "b".data), (t2 + 140, "a".data), (t2 + 280, "a".data)] := by
    simp only [insertByTime]
    rw [if_pos (show t3 < t2 + 140 by omega),
      if_neg (show ¬t2 + 280 < t2 + 140 by omega)]
  have s4 : insertByTime (t2, "a".data)
      [(t3, "b".data), (t2 + 140, "a".data), (t2 + 280, "a".data)] =
      [(t2, "a".data), (t3, "b".data), (t2 + 140, "a".data),
       (t2 + 280, "a".data)] := by
    simp only [insertByTime]
    rw [if_neg (show ¬t3 < t2 by omega)]
  have s5 : insertByTime (t1, "left".data)
      [(t2, "a".data), (t3, "b".data), (t2 + 140, "a".data),
       (t2 + 280, "a".data)] =
      [(t1, "left".data), (t2, "a".data), (t3, "b".data),
       (t2 + 140, "a".data), (t2 + 280, "a".data)] := by
    simp only [insertByTime]
    rw [if_neg (show ¬t2 < t1 by omega)]
  rw [h0, s2, s3, s4, s5]
  rfl

/-- Witness for C9: at concrete arrival times 0, 0, 0 the schedule produces
the dispatch order left, a, b, a, a. -/
theorem claim_C9_witness :
    expandEnqueues 0 ⟨["a".data], 80, "a".data, 3⟩ =
      [(0, "a".data), (140, "a".data), (280, "a".data)] ∧
    (sortByTime (scheduleEnqueues
        [((0 : Int), (⟨["left".data], 80, "left".data, 1⟩ : ParsedCommand)),
         (0, ⟨["a".data], 80, "a".data, 3⟩),
         (0, ⟨["b".data], 80, "b".data, 1⟩)])).map Prod.snd =
      ["left".data, "a".data, "b".data, "a".data, "a".data] := by
  have h := claim_C9_repeat_scheduling 0 0 0
    ⟨["left".data], 80, "left".data, 1⟩
    ⟨["a".data], 80, "a".data, 3⟩
    ⟨["b".data], 80, "b".data, 1⟩
    (by decide) (by decide) (by decide)
    (le_refl 0) (le_refl 0) (by decide)
  simpa using h

/-! ## Normalized round-trip -/

theorem reparseChecks_true : reparseChecks = true := by decide

theorem reparseCheck_single {x : List Char} (hx : x ∈ SUPPORTED_COMMANDS)
    (hold : Bool) : reparseCheck [x] hold = true := by
  have h := reparseChecks_true
  rw [reparseChecks, List.all_eq_true] at h
  have h1 := h x hx
  rw [Bool.and_eq_true, Bool.and_eq_true] at h1
  cases hold
  · exact h1.1.2
  · exact h1.1.1

theorem reparseCheck_pair {x y : List Char} (hx : x ∈ SUPPORTED_COMMANDS)
    (hy : y ∈ SUPPORTED_COMMANDS) (hold : Bool) :
    reparseCheck [x, y] hold = true := by
  have h := reparseChecks_true
  rw [reparseChecks, List.all_eq_true] at h
  have h1 := h x hx
  rw [Bool.and_eq_true] at h1
  have h2 := h1.2
  rw [List.all_eq_true] at h2
  have h3 := h2 y hy
  rw [Bool.and_eq_true] at h3
  cases hold
  · exact h3.2
  · exact h3.1

theorem reparse_of_vocab (bs : List (List Char)) (hold : Bool)
    (hlen : bs.length = 1 ∨ bs.length = 2)
    (hmem : ∀ b ∈ bs, b ∈ SUPPORTED_COMMANDS) :
    parseCommand (List.intercalate ['+'] bs ++ (if hold then ['-'] else []))
        false =
      some { buttons := bs
           , durationMs := if hold then LONG_KEYPRESS_DURATION_MS
                           else KEYPRESS_DURATION_MS
           , normalized := List.intercalate ['+'] bs ++
               (if hold then ['-'] else [])
           , repeatCount := 1 } := by
  rcases hlen with h1 | h2
  · obtain ⟨x, rfl⟩ := List.length_eq_one.mp h1
    exact of_decide_eq_true (reparseCheck_single (hmem x (by simp)) hold)
  · obtain ⟨x, y, rfl⟩ := List.length_eq_two.mp h2
    exact of_decide_eq_true
      (reparseCheck_pair (hmem x (by simp)) (hmem y (by simp)) hold)

theorem parseCommandNoSpam_some_inv {raw : List Char} {b : ParsedCommand}
    (h : parseCommandNoSpam raw = some b) :
    spamMatch (normalizeCommand raw) = none ∧
    comboParse (normalizeCommand raw) = some b := by
  by_cases he : (normalizeCommand raw).isEmpty = true
  · simp [parseCommandNoSpam, he] at h
  · have he' : (normalizeCommand raw).isEmpty = false := by
      cases hh : (normalizeCommand raw).isEmpty
      · rfl
      · exact absurd hh he
    cases hm : spamMatch (normalizeCommand raw) with
    | some v => simp [parseCommandNoSpam, he', hm] at h
    | none =>
      refine ⟨rfl, ?_⟩
      simpa [parseCommandNoSpam, he', hm] using h

theorem parseCommand_some_shape {raw : List Char} {allow : Bool}
    {p : ParsedCommand} (h : parseCommand raw allow = some p) :
    ∃ s : List Char,
      p.buttons = comboParts s ∧
      (1 ≤ (comboParts s).length ∧ (comboParts s).length ≤ 2) ∧
      (∀ b ∈ comboParts s, ¬b.isEmpty ∧ b ∈ SUPPORTED_COMMANDS) ∧
      p.durationMs = (if comboHold s then LONG_KEYPRESS_DURATION_MS
                      else KEYPRESS_DURATION_MS) ∧
      p.normalized = List.intercalate ['+'] (comboParts s) ++
        (if comboHold s then ['-'] else []) := by
  by_cases he : (normalizeCommand raw).isEmpty = true
  · rw [parseCommand_of_empty allow he] at h
    cases h
  · have he' : (normalizeCommand raw).isEmpty = false := by
      cases hh : (normalizeCommand raw).isEmpty
      · rfl
      · exact absurd hh he
    cases hm : spamMatch (normalizeCommand raw) with
    | none =>
      rw [parseCommand_of_no_spam allow he' hm] at h
      refine ⟨normalizeCommand raw, ?_⟩
      have hf := comboParse_eq_some h
      have hc : (comboParse (normalizeCommand raw)).isSome = true := by
        rw [h]
        rfl
      have hcond := (comboParse_isSome_iff _).mp hc
      exact ⟨hf.1, ⟨hcond.1, hcond.2.1⟩, hcond.2.2, hf.2.1, hf.2.2.1⟩
    | some v =>
      obtain ⟨base, ds⟩ := v
      rw [parseCommand_of_spam allow hm] at h
      cases allow with
      | false => cases h
      | true =>
        rw [if_pos rfl] at h
        by_cases hr : digitsVal ds < 2 ∨
            MAX_COMMAND_SPAM_REPEAT < digitsVal ds
        · rw [if_pos hr] at h
          cases h
        · rw [if_neg hr] at h
          cases hb : parseCommandNoSpam base with
          | none =>
            rw [hb] at h
            cases h
          | some b =>
            rw [hb] at h
            cases h
            obtain ⟨hm2, hcb⟩ := parseCommandNoSpam_some_inv hb
            refine ⟨normalizeCommand base, ?_⟩
            have hf := comboParse_eq_some hcb
            have hc : (comboParse (normalizeCommand base)).isSome = true := by
              rw [hcb]
              rfl
            have hcond := (comboParse_isSome_iff _).mp hc
            exact ⟨hf.1, ⟨hcond.1, hcond.2.1⟩, hcond.2.2, hf.2.1, hf.2.2.1⟩

/-- C10: re-parsing the normalized string of any parser result (for any
input and either gate setting) with the repeat suffix disabled succeeds and
reproduces the same buttons, duration and normalized string with repeatCount
one; consequently, when the consumer selects an item whose stored command is
such a normalized string, it takes the mark-active dispatch branch, never
the defensive parse-failure error branch. -/
theorem claim_C10_roundtrip :
    (∀ (raw : List Char) (allow : Bool) (p : ParsedCommand),
       parseCommand raw allow = some p →
       parseCommand p.normalized false =
         some { buttons := p.buttons, durationMs := p.durationMs,
                normalized := p.normalized, repeatCount := 1 }) ∧
    (∀ (s : SysState) (next : QueueItem) (raw : List Char) (allow : Bool)
       (p : ParsedCommand),
       parseCommand raw allow = some p → next.command = p.normalized →
       s.consumer = ConsumerPC.loopTop → selectNext s.queue = some next →
       stepConsume s =
         { s with queue := markFirstQueued QueueStatus.active s.queue,
                  activeCommandId := some next.id,
                  consumer := ConsumerPC.dispatching next.ref }) := by
  have main : ∀ (raw : List Char) (allow : Bool) (p : ParsedCommand),
      parseCommand raw allow = some p →
      parseCommand p.normalized false =
        some { buttons := p.buttons, durationMs := p.durationMs,
               normalized := p.normalized, repeatCount := 1 } := by
    intro raw allow p h
    obtain ⟨s, hb, hlen, hmem, hd, hn⟩ := parseCommand_some_shape h
    have hlen' : (comboParts s).length = 1 ∨ (comboParts s).length = 2 := by
      omega
    have hmem' : ∀ b ∈ comboParts s, b ∈ SUPPORTED_COMMANDS :=
      fun b hb' => (hmem b hb').2
    rw [hn, hb, hd]
    exact reparse_of_vocab (comboParts s) (comboHold s) hlen' hmem'
  refine ⟨main, ?_⟩
  intro s next raw allow p h hcmd hc hsel
  have hparse : parseCommand next.command false =
      some { buttons := p.buttons, durationMs := p.durationMs,
             normalized := p.normalized, repeatCount := 1 } := by
    rw [hcmd]
    exact main raw allow p h
  simp only [stepConsume, hc, hsel, hparse]

/-- Witness for C10: the parser result for a x5 has normalized form a, and
re-parsing it with the repeat suffix disabled reproduces the same command
with repeatCount one. -/
theorem claim_C10_witness :
    parseCommandS "a x5" true =
      some { buttons := ["a".data], durationMs := 80,
             normalized := "a".data, repeatCount := 5 } ∧
    parseCommand "a".data false =
      some { buttons := ["a".data], durationMs := 80,
             normalized := "a".data, repeatCount := 1 } := by
  have h : parseCommandS "a x5" true =
      some { buttons := ["a".data], durationMs := 80,
             normalized := "a".data, repeatCount := 5 } := by decide
  refine ⟨h, ?_⟩
  have h2 := claim_C10_roundtrip.1 "a x5".data true _ h
  simpa using h2

end SPP
